import Mathlib

/-!
Shallow embedding of `src/src/SetupHalo.cpp` (HPCG halo-exchange setup).

The MPI branch of `SetupHalo` is modelled.  C++ containers are embedded as
follows:

* `std::set<global_int_t>` — a strictly ascending `List Int`; `insert` is
  `setInsert` (sorted insert that drops duplicates).  Iteration order of the
  C++ set is its ascending order, i.e. the list order here.
* `std::map<int, std::set<global_int_t>>` (`sendList`, `receiveList`) — an
  association list sorted strictly by key (`RankSetMap`); `m[k].insert(v)`
  is `mapSetInsert`, reading `m[k]` is `mapSetFind` (absent key reads as the
  empty set, matching `operator[]` default construction).  Iteration order of
  the C++ map is ascending key order, i.e. the list order here.
* `externalToLocalMap` (a `std::map` assigned in a loop) — the list of
  (key, value) assignments in program order (`externalPairs`); a read takes
  the last assignment to the key (`extLookup`, `operator[]` overwrite
  semantics, absent key reading the value-initialised `0`), and the map's
  `size()` is the number of distinct keys.

Machine integers (`global_int_t`, ranks) are embedded as `Int`, local indices
as `Nat`; no arithmetic in `SetupHalo.cpp` can overflow for the index ranges
the benchmark admits, so no wrap-around is modelled.
-/

namespace SetupHaloModel

/-- `std::set<global_int_t>::insert`: keep the list strictly ascending and
drop the element if it is already present. -/
def setInsert (v : Int) : List Int → List Int
  | [] => [v]
  | x :: xs =>
    if v < x then v :: x :: xs
    else if v = x then x :: xs
    else x :: setInsert v xs

/-- `std::map<int, std::set<global_int_t>>`, sorted strictly by key. -/
abbrev RankSetMap := List (Int × List Int)

/-- `m[k].insert(v)` on a `RankSetMap`. -/
def mapSetInsert (k v : Int) : RankSetMap → RankSetMap
  | [] => [(k, [v])]
  | (k', s) :: rest =>
    if k < k' then (k, [v]) :: (k', s) :: rest
    else if k = k' then (k', setInsert v s) :: rest
    else (k', s) :: mapSetInsert k v rest

/-- Reading `m[k]` on a `RankSetMap`; an absent key reads as the empty set. -/
def mapSetFind (k : Int) (m : RankSetMap) : List Int :=
  match m.find? (fun p => p.1 == k) with
  | some p => p.2
  | none => []

/-- Modelled from the spec: the matrix's `globalToLocalMap` (the OwnershipMap).
Its declaration (`SparseMatrix.hpp`) is not part of the sources; the spec
describes it as a bijective partial map from this process's owned global row
ids to local row indices, a lookup of an id it does not hold being an
unrecoverable malformed-partition error.  It is embedded as an association
list with an `Option`-valued lookup; a failed lookup aborts the setup. -/
def mapFind? (m : List (Int × Nat)) (g : Int) : Option Nat :=
  (m.find? (fun p => p.1 == g)).map Prod.snd

/-- The inputs `SetupHalo` reads: `geom.rank`, the rows `mtxIndG[i][0..
nonzerosInRow[i])` of global column ids, `A.localToGlobalMap`,
`A.globalToLocalMap`, and `getRankOfMatrixRow(geom, A, ·)` as an opaque
resolver function. -/
structure SparseMatrixIn where
  rank : Int
  rows : List (List Int)
  localToGlobal : List Int
  globalToLocal : List (Int × Nat)
  rankOf : Int → Int

/-- `A.localNumberOfRows` (the loop bound of every row loop). -/
def localNumberOfRows (A : SparseMatrixIn) : Nat := A.rows.length

/-- Inner loop of the dependency scan (lines 78–89): for each global column
id of the current row, if its owning rank differs from ours, insert the
column id into `receiveList[rank]` and the current row's global id into
`sendList[rank]`; otherwise change nothing. -/
def scanRow (A : SparseMatrixIn) (currentGlobalRow : Int) :
    List Int → RankSetMap × RankSetMap → RankSetMap × RankSetMap
  | [], st => st
  | curIndex :: rest, st =>
    scanRow A currentGlobalRow rest
      (if A.rank ≠ A.rankOf curIndex then
        (mapSetInsert (A.rankOf curIndex) curIndex st.1,
         mapSetInsert (A.rankOf curIndex) currentGlobalRow st.2)
      else st)

/-- Outer loop of the dependency scan (lines 76–90), walking the local rows
paired with their global ids from `localToGlobalMap`. -/
def scanRows (A : SparseMatrixIn) :
    List (Int × List Int) → RankSetMap × RankSetMap → RankSetMap × RankSetMap
  | [], st => st
  | (currentGlobalRow, cols) :: rest, st =>
    scanRows A rest (scanRow A currentGlobalRow cols st)

/-- The pair `(receiveList, sendList)` after the dependency scan. -/
def scanLists (A : SparseMatrixIn) : RankSetMap × RankSetMap :=
  scanRows A (A.localToGlobal.zip A.rows) ([], [])

/-- `receiveList` after the scan. -/
def receiveList (A : SparseMatrixIn) : RankSetMap := (scanLists A).1

/-- `sendList` after the scan. -/
def sendList (A : SparseMatrixIn) : RankSetMap := (scanLists A).2

/-- Sum of the set sizes of a `RankSetMap` (the counting loops, lines
93–100). -/
def setSizeSum (m : RankSetMap) : Nat := (m.map (fun p => p.2.length)).sum

/-- `totalToBeSent` (lines 93–96). -/
def totalToBeSent (A : SparseMatrixIn) : Nat := setSizeSum (sendList A)

/-- `totalToBeReceived` (lines 97–100). -/
def totalToBeReceived (A : SparseMatrixIn) : Nat := setSizeSum (receiveList A)

/-- The `neighbors` array: rank ids in `receiveList` iteration order
(line 125). -/
def neighborsOf (A : SparseMatrixIn) : List Int :=
  (receiveList A).map Prod.fst

/-- The `receiveLength` array (line 126). -/
def receiveLengthOf (A : SparseMatrixIn) : List Nat :=
  (receiveList A).map (fun p => p.2.length)

/-- The `sendLength` array (line 127): for each neighbor in `receiveList`
order, the size of `sendList[neighborId]`. -/
def sendLengthOf (A : SparseMatrixIn) : List Nat :=
  (receiveList A).map (fun p => (mapSetFind p.1 (sendList A)).length)

/-- The assignments `externalToLocalMap[*i] = localNumberOfRows +
receiveEntryCount` (lines 128–130) in program order: neighbors in ascending
rank order, each receive set in ascending order, one shared counter starting
at `base = localNumberOfRows`. -/
def externalPairs (base : Nat) (recvL : RankSetMap) : List (Int × Nat) :=
  let ext := recvL.flatMap Prod.snd
  ext.zip (List.range' base ext.length)

/-- The `externalToLocalMap` built by `SetupHalo`. -/
def externalAssignment (A : SparseMatrixIn) : List (Int × Nat) :=
  externalPairs (localNumberOfRows A) (receiveList A)

/-- Reading `externalToLocalMap[g]`: the last assignment to `g` wins
(`std::map` overwrite); an absent key reads the value-initialised `0`. -/
def extLookup (pairs : List (Int × Nat)) (g : Int) : Nat :=
  match pairs.reverse.find? (fun p => p.1 == g) with
  | some p => p.2
  | none => 0

/-- `externalToLocalMap.size()`: the number of distinct keys assigned. -/
def numberOfExternalValuesOf (A : SparseMatrixIn) : Nat :=
  ((externalAssignment A).map Prod.fst).dedup.length

/-- A loop over an `Option`-producing step that aborts at the first
failure. -/
def mapOption (f : α → Option β) : List α → Option (List β)
  | [] => some []
  | a :: l =>
    match f a, mapOption f l with
    | some b, some l' => some (b :: l')
    | _, _ => none

/-- The `elementsToSend` array (lines 131–134): for each neighbor in
`receiveList` order, walk `sendList[neighborId]` in ascending order and store
`A.globalToLocalMap[*i]`; a failed ownership lookup aborts. -/
def elementsToSendOf (A : SparseMatrixIn) : Option (List Nat) :=
  mapOption (mapFind? A.globalToLocal)
    ((receiveList A).flatMap (fun p => mapSetFind p.1 (sendList A)))

/-- The index-rewrite pass (lines 141–152): every global column id is
replaced by `A.globalToLocalMap[curIndex]` when the resolver says it is
local, by `externalToLocalMap[curIndex]` otherwise. -/
def mtxIndLOf (A : SparseMatrixIn) : Option (List (List Nat)) :=
  mapOption
    (fun cols =>
      mapOption
        (fun curIndex =>
          if A.rank = A.rankOf curIndex then mapFind? A.globalToLocal curIndex
          else some (extLookup (externalAssignment A) curIndex))
        cols)
    A.rows

/-- The fields `SetupHalo` stores into the matrix (lines 154–163), plus the
rewritten `mtxIndL` and the size of the allocated `sendBuffer`. -/
structure HaloPlan where
  mtxIndL : List (List Nat)
  numberOfExternalValues : Nat
  localNumberOfColumns : Nat
  numberOfSendNeighbors : Nat
  totalToBeSent : Nat
  elementsToSend : List Nat
  neighbors : List Int
  receiveLength : List Nat
  sendLength : List Nat
  sendBufferSize : Nat
deriving DecidableEq, Repr

/-- The MPI branch of `SetupHalo` end to end.  The two ownership-map lookup
loops are the only failure points (spec: a malformed partition is an
unrecoverable error surfaced immediately, with no partial result). -/
def SetupHaloMPI (A : SparseMatrixIn) : Option HaloPlan :=
  match elementsToSendOf A, mtxIndLOf A with
  | some es, some ml =>
    some
      { mtxIndL := ml
        numberOfExternalValues := numberOfExternalValuesOf A
        localNumberOfColumns := localNumberOfRows A + numberOfExternalValuesOf A
        numberOfSendNeighbors := (sendList A).length
        totalToBeSent := totalToBeSent A
        elementsToSend := es
        neighbors := neighborsOf A
        receiveLength := receiveLengthOf A
        sendLength := sendLengthOf A
        sendBufferSize := totalToBeSent A }
  | _, _ => none

/-! ### Global problems and per-rank local views

Used to state claims that quantify over "valid inputs" of the whole
distributed run (structural symmetry is a property of the global pattern). -/

/-- A distributed problem: the number of ranks, the global nonzero pattern
(one entry per global row), and the ownership function the resolver
implements. -/
structure GlobalProblem where
  size : Nat
  pattern : List (Int × List Int)
  owner : Int → Int

/-- The nonzero column ids of global row `g`. -/
def patternRow (P : GlobalProblem) (g : Int) : List Int :=
  match P.pattern.find? (fun p => p.1 == g) with
  | some p => p.2
  | none => []

/-- Structural symmetry of the global pattern: if row `i` references column
`j` then row `j` references column `i`. -/
def StructurallySymmetric (P : GlobalProblem) : Prop :=
  ∀ p ∈ P.pattern, ∀ j ∈ p.2, p.1 ∈ patternRow P j

/-- A well-formed partition: distinct global rows, every referenced column
is a row of the pattern, and every owner rank is a valid rank id. -/
def WellFormedPartition (P : GlobalProblem) : Prop :=
  (P.pattern.map Prod.fst).Nodup ∧
  (∀ p ∈ P.pattern, ∀ j ∈ p.2, (P.pattern.find? (fun q => q.1 == j)).isSome) ∧
  (∀ p ∈ P.pattern, 0 ≤ P.owner p.1 ∧ P.owner p.1 < (P.size : Int))

/-- The local view rank `r` presents to `SetupHalo`: its owned rows in
ascending global order, the induced `localToGlobalMap` and
`globalToLocalMap`, and the resolver. -/
def localView (P : GlobalProblem) (r : Int) : SparseMatrixIn :=
  let owned := P.pattern.filter (fun p => P.owner p.1 == r)
  { rank := r
    rows := owned.map Prod.snd
    localToGlobal := owned.map Prod.fst
    globalToLocal := (owned.map Prod.fst).zip (List.range owned.length)
    rankOf := P.owner }

/-! ### Invariant predicates and concrete instances -/

/-- Keys of a `RankSetMap` are strictly ascending. -/
def KeysSorted (m : RankSetMap) : Prop :=
  List.Pairwise (· < ·) (m.map Prod.fst)

/-- The invariant of both scan-built maps: strictly ascending keys, none
equal to the local rank, and strictly ascending nonempty sets. -/
def EntryInv (A : SparseMatrixIn) (m : RankSetMap) : Prop :=
  KeysSorted m ∧ ∀ p ∈ m, List.Pairwise (· < ·) p.2 ∧ p.2 ≠ [] ∧ p.1 ≠ A.rank

/-- Every element of a receive set is owned by exactly the rank keying that
set. -/
def RecvTag (A : SparseMatrixIn) (m : RankSetMap) : Prop :=
  ∀ p ∈ m, ∀ g ∈ p.2, A.rankOf g = p.1

/-- A structurally symmetric two-rank problem: global row 0 (owned by rank
0) is coupled to global rows 1 and 2 (owned by rank 1). -/
def exP : GlobalProblem :=
  { size := 2
    pattern := [(0, [0, 1, 2]), (1, [1, 0]), (2, [2, 0])]
    owner := fun g => if g == 0 then 0 else 1 }

/-- Rank 0's local view of `exP`: one row, two remote columns, one rank-1
neighbor. -/
def exV0 : SparseMatrixIn := localView exP 0

/-- Rank 1's local view of `exP`. -/
def exV1 : SparseMatrixIn := localView exP 1

/-- A matrix whose single row references remote ranks 2 then 1, in that
scan order. -/
def exOrd1 : SparseMatrixIn :=
  { rank := 0
    rows := [[2, 1]]
    localToGlobal := [0]
    globalToLocal := [(0, 0)]
    rankOf := fun g => if g == 0 then 0 else if g == 1 then 1 else 2 }

/-- The same dependencies as `exOrd1` but scanned in the opposite column
order. -/
def exOrd2 : SparseMatrixIn :=
  { rank := 0
    rows := [[1, 2]]
    localToGlobal := [0]
    globalToLocal := [(0, 0)]
    rankOf := fun g => if g == 0 then 0 else if g == 1 then 1 else 2 }

/-- A malformed partition: the resolver claims rank 0 owns every id, but
the ownership map lacks column id 5 referenced by the single local row. -/
def exBad : SparseMatrixIn :=
  { rank := 0
    rows := [[5]]
    localToGlobal := [7]
    globalToLocal := [(7, 0)]
    rankOf := fun _ => 0 }

/-- The communication plan `SetupHalo` produces on `exV0`. -/
def exPlan0 : HaloPlan :=
  { mtxIndL := [[0, 1, 2]]
    numberOfExternalValues := 2
    localNumberOfColumns := 3
    numberOfSendNeighbors := 1
    totalToBeSent := 1
    elementsToSend := [0]
    neighbors := [1]
    receiveLength := [2]
    sendLength := [1]
    sendBufferSize := 1 }

/-- A matrix every column reference of which is locally owned. -/
def exLoc : SparseMatrixIn :=
  { rank := 0
    rows := [[1, 0], [0, 1]]
    localToGlobal := [0, 1]
    globalToLocal := [(0, 0), (1, 1)]
    rankOf := fun _ => 0 }

/-! ### Lemmas about the container embeddings -/

theorem mem_setInsert {v x : Int} : ∀ {s : List Int},
    x ∈ setInsert v s ↔ x = v ∨ x ∈ s := by
  intro s
  induction s with
  | nil => simp [setInsert]
  | cons y ys ih =>
    by_cases h1 : v < y
    · simp [setInsert, h1]
    · by_cases h2 : v = y
      · subst h2; simp [setInsert, h1]
      · simp [setInsert, h1, h2, ih]
        tauto

theorem setInsert_sorted {v : Int} : ∀ {s : List Int},
    List.Pairwise (· < ·) s → List.Pairwise (· < ·) (setInsert v s) := by
  intro s
  induction s with
  | nil => simp [setInsert]
  | cons y ys ih =>
    intro hs
    rw [List.pairwise_cons] at hs
    by_cases h1 : v < y
    · rw [setInsert]
      simp only [h1, if_pos]
      rw [List.pairwise_cons]
      constructor
      · intro a ha
        rcases List.mem_cons.mp ha with h | h
        · exact h ▸ h1
        · exact lt_trans h1 (hs.1 a h)
      · exact List.pairwise_cons.mpr hs
    · by_cases h2 : v = y
      · rw [setInsert, if_neg h1, if_pos h2]
        exact List.pairwise_cons.mpr hs
      · rw [setInsert]
        simp only [h1, h2, if_neg, not_false_iff]
        rw [List.pairwise_cons]
        constructor
        · intro a ha
          rcases mem_setInsert.mp ha with h | h
          · subst h; omega
          · exact hs.1 a h
        · exact ih hs.2

theorem setInsert_ne_nil {v : Int} {s : List Int} : setInsert v s ≠ [] := by
  cases s with
  | nil => simp [setInsert]
  | cons y ys =>
    rw [setInsert]
    by_cases h1 : v < y
    · simp [h1]
    · by_cases h2 : v = y <;> simp [h1, h2]

theorem map_fst_mapSetInsert {k v : Int} : ∀ {m : RankSetMap},
    (mapSetInsert k v m).map Prod.fst = setInsert k (m.map Prod.fst) := by
  intro m
  induction m with
  | nil => simp [mapSetInsert, setInsert]
  | cons p rest ih =>
    obtain ⟨k', s⟩ := p
    rw [mapSetInsert]
    by_cases h1 : k < k'
    · simp [h1, setInsert]
    · by_cases h2 : k = k'
      · simp [h1, h2, setInsert]
      · simp [h1, h2, setInsert, ih]

theorem keysSorted_mapSetInsert {k v : Int} {m : RankSetMap}
    (h : KeysSorted m) : KeysSorted (mapSetInsert k v m) := by
  unfold KeysSorted at h ⊢
  rw [map_fst_mapSetInsert]
  exact setInsert_sorted h

theorem mem_mapSetInsert {k v : Int} {p : Int × List Int} : ∀ {m : RankSetMap},
    p ∈ mapSetInsert k v m →
    p ∈ m ∨ ∃ s, p = (k, setInsert v s) ∧ (s = [] ∨ (k, s) ∈ m) := by
  intro m
  induction m with
  | nil =>
    intro hp
    simp only [mapSetInsert, List.mem_singleton] at hp
    exact Or.inr ⟨[], by simpa [setInsert] using hp, Or.inl rfl⟩
  | cons q rest ih =>
    obtain ⟨k', s'⟩ := q
    intro hp
    rw [mapSetInsert] at hp
    by_cases h1 : k < k'
    · simp only [h1, if_pos] at hp
      rcases List.mem_cons.mp hp with h | h
      · exact Or.inr ⟨[], by simpa [setInsert] using h, Or.inl rfl⟩
      · exact Or.inl h
    · by_cases h2 : k = k'
      · subst h2
        simp only [h1, if_neg, if_pos, not_false_iff] at hp
        rcases List.mem_cons.mp hp with h | h
        · exact Or.inr ⟨s', h, Or.inr (List.mem_cons_self _ _)⟩
        · exact Or.inl (List.mem_cons_of_mem _ h)
      · simp only [h1, h2, if_neg, not_false_iff] at hp
        rcases List.mem_cons.mp hp with h | h
        · exact Or.inl (h ▸ List.mem_cons_self _ _)
        · rcases ih h with h' | ⟨s, hs1, hs2⟩
          · exact Or.inl (List.mem_cons_of_mem _ h')
          · rcases hs2 with h'' | h''
            · exact Or.inr ⟨s, hs1, Or.inl h''⟩
            · exact Or.inr ⟨s, hs1, Or.inr (List.mem_cons_of_mem _ h'')⟩

theorem mapSetFind_cons {k k' : Int} {s : List Int} {rest : RankSetMap} :
    mapSetFind k ((k', s) :: rest) = if k' = k then s else mapSetFind k rest := by
  by_cases h : k' = k
  · simp [mapSetFind, List.find?_cons_of_pos, h]
  · rw [mapSetFind, List.find?_cons_of_neg _ (by simpa using h), if_neg h, mapSetFind]

theorem mapSetFind_eq_nil_of_forall_ne {k : Int} : ∀ {m : RankSetMap},
    (∀ x ∈ m.map Prod.fst, k ≠ x) → mapSetFind k m = [] := by
  intro m
  induction m with
  | nil => intro _; rfl
  | cons q rest ih =>
    intro h
    obtain ⟨k', s⟩ := q
    rw [mapSetFind_cons, if_neg, ih]
    · intro x hx
      exact h x (List.mem_cons_of_mem _ hx)
    · exact fun he => h k' (by simp) he.symm

theorem keysSorted_cons {k : Int} {s : List Int} {rest : RankSetMap}
    (h : KeysSorted ((k, s) :: rest)) :
    (∀ q ∈ rest, k < q.1) ∧ KeysSorted rest := by
  unfold KeysSorted at h
  rw [List.map_cons, List.pairwise_cons] at h
  exact ⟨fun q hq => h.1 q.1 (List.mem_map_of_mem _ hq), h.2⟩

theorem mapSetFind_eq_of_mem {k : Int} {s : List Int} : ∀ {m : RankSetMap},
    KeysSorted m → (k, s) ∈ m → mapSetFind k m = s := by
  intro m
  induction m with
  | nil => intro _ h; simp at h
  | cons q rest ih =>
    intro hm hmem
    obtain ⟨k', s'⟩ := q
    rcases List.mem_cons.mp hmem with h | h
    · obtain ⟨h1, h2⟩ := Prod.mk.injEq .. ▸ h
      rw [mapSetFind_cons, if_pos h1.symm, h2]
    · have hk := (keysSorted_cons hm).1 _ h
      rw [mapSetFind_cons, if_neg (by simp at hk; omega)]
      exact ih (keysSorted_cons hm).2 h

theorem mapSetFind_mapSetInsert {k v r : Int} : ∀ {m : RankSetMap},
    KeysSorted m →
    mapSetFind r (mapSetInsert k v m) =
      if r = k then setInsert v (mapSetFind k m) else mapSetFind r m := by
  intro m
  induction m with
  | nil =>
    intro _
    rw [mapSetInsert, mapSetFind_cons]
    by_cases h : r = k
    · rw [if_pos h.symm, if_pos h]; rfl
    · rw [if_neg (fun he => h he.symm), if_neg h]
  | cons q rest ih =>
    intro hm
    obtain ⟨k', s'⟩ := q
    rw [mapSetInsert]
    by_cases h1 : k < k'
    · rw [if_pos h1]
      by_cases h2 : r = k
      · subst h2
        have hnil : mapSetFind r rest = [] := by
          apply mapSetFind_eq_nil_of_forall_ne
          intro x hx
          rcases List.mem_map.mp hx with ⟨q, hq, hxq⟩
          have := (keysSorted_cons hm).1 q hq
          omega
        rw [mapSetFind_cons, if_pos rfl, if_pos rfl, mapSetFind_cons,
          if_neg (by omega), hnil]
        rfl
      · rw [mapSetFind_cons, if_neg (fun he => h2 he.symm), if_neg h2]
    · by_cases h2 : k = k'
      · subst h2
        rw [if_neg h1, if_pos rfl, mapSetFind_cons]
        by_cases h3 : r = k
        · rw [if_pos h3.symm, if_pos h3, mapSetFind_cons, if_pos rfl]
        · rw [if_neg (fun he => h3 he.symm), if_neg h3, mapSetFind_cons,
            if_neg (fun he => h3 he.symm)]
      · rw [if_neg h1, if_neg h2]
        by_cases h3 : r = k'
        · have hrk : ¬r = k := fun he => h2 ((h3.symm.trans he).symm)
          rw [mapSetFind_cons, if_pos h3.symm, if_neg hrk, mapSetFind_cons,
            if_pos h3.symm]
        · rw [mapSetFind_cons, if_neg (fun he => h3 he.symm),
            ih (keysSorted_cons hm).2]
          by_cases h4 : r = k
          · rw [if_pos h4, if_pos h4, mapSetFind_cons,
              if_neg (fun he => h2 he.symm)]
          · rw [if_neg h4, if_neg h4, mapSetFind_cons,
              if_neg (fun he => h3 he.symm)]

theorem mem_find_mapSetInsert {k v r g : Int} {m : RankSetMap} (h : KeysSorted m) :
    g ∈ mapSetFind r (mapSetInsert k v m) ↔
      (r = k ∧ g = v) ∨ g ∈ mapSetFind r m := by
  rw [mapSetFind_mapSetInsert h]
  by_cases hr : r = k
  · subst hr
    simp [mem_setInsert]
  · simp [hr]

theorem entryInv_nil (A : SparseMatrixIn) : EntryInv A [] := by
  refine ⟨List.Pairwise.nil, ?_⟩
  intro p hp
  simp at hp

theorem entryInv_mapSetInsert {A : SparseMatrixIn} {k v : Int} {m : RankSetMap}
    (h : EntryInv A m) (hk : k ≠ A.rank) : EntryInv A (mapSetInsert k v m) := by
  refine ⟨keysSorted_mapSetInsert h.1, ?_⟩
  intro p hp
  rcases mem_mapSetInsert hp with hm | ⟨s, hps, hs⟩
  · exact h.2 p hm
  · subst hps
    refine ⟨?_, setInsert_ne_nil, hk⟩
    rcases hs with h' | h'
    · subst h'
      exact setInsert_sorted List.Pairwise.nil
    · exact setInsert_sorted (h.2 _ h').1

theorem entryInv_scanRow (A : SparseMatrixIn) (row : Int) :
    ∀ (cols : List Int) (st : RankSetMap × RankSetMap),
    EntryInv A st.1 → EntryInv A st.2 →
    EntryInv A (scanRow A row cols st).1 ∧ EntryInv A (scanRow A row cols st).2 := by
  intro cols
  induction cols with
  | nil => intro st h1 h2; exact ⟨h1, h2⟩
  | cons c rest ih =>
    intro st h1 h2
    rw [scanRow]
    by_cases hc : A.rank ≠ A.rankOf c
    · rw [if_pos hc]
      exact ih _ (entryInv_mapSetInsert h1 (Ne.symm hc))
        (entryInv_mapSetInsert h2 (Ne.symm hc))
    · rw [if_neg hc]
      exact ih _ h1 h2

theorem entryInv_scanRows (A : SparseMatrixIn) :
    ∀ (l : List (Int × List Int)) (st : RankSetMap × RankSetMap),
    EntryInv A st.1 → EntryInv A st.2 →
    EntryInv A (scanRows A l st).1 ∧ EntryInv A (scanRows A l st).2 := by
  intro l
  induction l with
  | nil => intro st h1 h2; exact ⟨h1, h2⟩
  | cons p rest ih =>
    intro st h1 h2
    obtain ⟨row, cols⟩ := p
    rw [scanRows]
    have h := entryInv_scanRow A row cols st h1 h2
    exact ih _ h.1 h.2

theorem entryInv_scanLists (A : SparseMatrixIn) :
    EntryInv A (receiveList A) ∧ EntryInv A (sendList A) :=
  entryInv_scanRows A _ _ (entryInv_nil A) (entryInv_nil A)

theorem mem_scanRow (A : SparseMatrixIn) (row : Int) :
    ∀ (cols : List Int) (st : RankSetMap × RankSetMap) (r g : Int),
    EntryInv A st.1 → EntryInv A st.2 →
    (g ∈ mapSetFind r (scanRow A row cols st).1 ↔
      g ∈ mapSetFind r st.1 ∨ (A.rank ≠ r ∧ A.rankOf g = r ∧ g ∈ cols)) ∧
    (g ∈ mapSetFind r (scanRow A row cols st).2 ↔
      g ∈ mapSetFind r st.2 ∨ (A.rank ≠ r ∧ g = row ∧ ∃ c ∈ cols, A.rankOf c = r)) := by
  intro cols
  induction cols with
  | nil =>
    intro st r g _ _
    simp [scanRow]
  | cons c rest ih =>
    intro st r g h1 h2
    rw [scanRow]
    by_cases hc : A.rank ≠ A.rankOf c
    · rw [if_pos hc]
      have hins1 := entryInv_mapSetInsert (v := c) h1 (Ne.symm hc)
      have hins2 := entryInv_mapSetInsert (v := row) h2 (Ne.symm hc)
      have hih := ih (mapSetInsert (A.rankOf c) c st.1,
        mapSetInsert (A.rankOf c) row st.2) r g hins1 hins2
      constructor
      · rw [hih.1, mem_find_mapSetInsert h1.1]
        constructor
        · rintro ((⟨hrc, hgc⟩ | hst) | ⟨hr, hrg, hrest⟩)
          · exact Or.inr ⟨hrc ▸ hc, hgc ▸ hrc.symm, hgc ▸ List.mem_cons_self _ _⟩
          · exact Or.inl hst
          · exact Or.inr ⟨hr, hrg, List.mem_cons_of_mem _ hrest⟩
        · rintro (hst | ⟨hr, hrg, hgc⟩)
          · exact Or.inl (Or.inr hst)
          · rcases List.mem_cons.mp hgc with he | he
            · exact Or.inl (Or.inl ⟨he ▸ hrg.symm, he⟩)
            · exact Or.inr ⟨hr, hrg, he⟩
      · rw [hih.2, mem_find_mapSetInsert h2.1]
        constructor
        · rintro ((⟨hrc, hgr⟩ | hst) | ⟨hr, hgr, c', hc', hrc'⟩)
          · exact Or.inr ⟨hrc ▸ hc, hgr, c, List.mem_cons_self _ _, hrc.symm⟩
          · exact Or.inl hst
          · exact Or.inr ⟨hr, hgr, c', List.mem_cons_of_mem _ hc', hrc'⟩
        · rintro (hst | ⟨hr, hgr, c', hc', hrc'⟩)
          · exact Or.inl (Or.inr hst)
          · rcases List.mem_cons.mp hc' with he | he
            · exact Or.inl (Or.inl ⟨he ▸ hrc'.symm, hgr⟩)
            · exact Or.inr ⟨hr, hgr, c', he, hrc'⟩
    · rw [if_neg hc]
      push_neg at hc
      have hih := ih st r g h1 h2
      constructor
      · rw [hih.1]
        constructor
        · rintro (hst | ⟨hr, hrg, hrest⟩)
          · exact Or.inl hst
          · exact Or.inr ⟨hr, hrg, List.mem_cons_of_mem _ hrest⟩
        · rintro (hst | ⟨hr, hrg, hgc⟩)
          · exact Or.inl hst
          · rcases List.mem_cons.mp hgc with he | he
            · exact absurd (he ▸ hrg) (hc ▸ hr)
            · exact Or.inr ⟨hr, hrg, he⟩
      · rw [hih.2]
        constructor
        · rintro (hst | ⟨hr, hgr, c', hc', hrc'⟩)
          · exact Or.inl hst
          · exact Or.inr ⟨hr, hgr, c', List.mem_cons_of_mem _ hc', hrc'⟩
        · rintro (hst | ⟨hr, hgr, c', hc', hrc'⟩)
          · exact Or.inl hst
          · rcases List.mem_cons.mp hc' with he | he
            · exact absurd (he ▸ hrc') (hc ▸ hr)
            · exact Or.inr ⟨hr, hgr, c', he, hrc'⟩

theorem mem_scanRows (A : SparseMatrixIn) :
    ∀ (l : List (Int × List Int)) (st : RankSetMap × RankSetMap) (r g : Int),
    EntryInv A st.1 → EntryInv A st.2 →
    (g ∈ mapSetFind r (scanRows A l st).1 ↔
      g ∈ mapSetFind r st.1 ∨
        (A.rank ≠ r ∧ A.rankOf g = r ∧ ∃ p ∈ l, g ∈ p.2)) ∧
    (g ∈ mapSetFind r (scanRows A l st).2 ↔
      g ∈ mapSetFind r st.2 ∨
        (A.rank ≠ r ∧ ∃ p ∈ l, p.1 = g ∧ ∃ c ∈ p.2, A.rankOf c = r)) := by
  intro l
  induction l with
  | nil =>
    intro st r g _ _
    simp [scanRows]
  | cons p rest ih =>
    intro st r g h1 h2
    obtain ⟨row, cols⟩ := p
    rw [scanRows]
    have hrowinv := entryInv_scanRow A row cols st h1 h2
    have hstep := mem_scanRow A row cols st r g h1 h2
    have hih := ih (scanRow A row cols st) r g hrowinv.1 hrowinv.2
    constructor
    · rw [hih.1, hstep.1]
      constructor
      · rintro ((hst | ⟨hr, hrg, hcols⟩) | ⟨hr, hrg, q, hq, hgq⟩)
        · exact Or.inl hst
        · exact Or.inr ⟨hr, hrg, (row, cols), List.mem_cons_self _ _, hcols⟩
        · exact Or.inr ⟨hr, hrg, q, List.mem_cons_of_mem _ hq, hgq⟩
      · rintro (hst | ⟨hr, hrg, q, hq, hgq⟩)
        · exact Or.inl (Or.inl hst)
        · rcases List.mem_cons.mp hq with he | he
          · exact Or.inl (Or.inr ⟨hr, hrg, by rw [he] at hgq; exact hgq⟩)
          · exact Or.inr ⟨hr, hrg, q, he, hgq⟩
    · rw [hih.2, hstep.2]
      constructor
      · rintro ((hst | ⟨hr, hgr, c', hc', hrc'⟩) | ⟨hr, q, hq, hq1, hq2⟩)
        · exact Or.inl hst
        · exact Or.inr ⟨hr, (row, cols), List.mem_cons_self _ _, hgr.symm, c', hc', hrc'⟩
        · exact Or.inr ⟨hr, q, List.mem_cons_of_mem _ hq, hq1, hq2⟩
      · rintro (hst | ⟨hr, q, hq, hq1, hq2⟩)
        · exact Or.inl (Or.inl hst)
        · rcases List.mem_cons.mp hq with he | he
          · subst he
            exact Or.inl (Or.inr ⟨hr, hq1.symm, hq2⟩)
          · exact Or.inr ⟨hr, q, he, hq1, hq2⟩

theorem mem_receiveList (A : SparseMatrixIn) (r g : Int) :
    g ∈ mapSetFind r (receiveList A) ↔
      A.rank ≠ r ∧ A.rankOf g = r ∧
        ∃ p ∈ A.localToGlobal.zip A.rows, g ∈ p.2 := by
  have h := (mem_scanRows A (A.localToGlobal.zip A.rows) ([], [])
    r g (entryInv_nil A) (entryInv_nil A)).1
  simpa [mapSetFind] using h

theorem mem_sendList (A : SparseMatrixIn) (r g : Int) :
    g ∈ mapSetFind r (sendList A) ↔
      A.rank ≠ r ∧
        ∃ p ∈ A.localToGlobal.zip A.rows, p.1 = g ∧ ∃ c ∈ p.2, A.rankOf c = r := by
  have h := (mem_scanRows A (A.localToGlobal.zip A.rows) ([], [])
    r g (entryInv_nil A) (entryInv_nil A)).2
  simpa [mapSetFind] using h

theorem recvTag_mapSetInsert {A : SparseMatrixIn} {k v : Int} {m : RankSetMap}
    (h : RecvTag A m) (hv : A.rankOf v = k) : RecvTag A (mapSetInsert k v m) := by
  intro p hp g hg
  rcases mem_mapSetInsert hp with hm | ⟨s, hps, hs⟩
  · exact h p hm g hg
  · subst hps
    rcases mem_setInsert.mp hg with he | he
    · exact he ▸ hv
    · rcases hs with h' | h'
      · simp [h'] at he
      · exact h _ h' g he

theorem recvTag_scanRow (A : SparseMatrixIn) (row : Int) :
    ∀ (cols : List Int) (st : RankSetMap × RankSetMap),
    RecvTag A st.1 → RecvTag A (scanRow A row cols st).1 := by
  intro cols
  induction cols with
  | nil => intro st h; exact h
  | cons c rest ih =>
    intro st h
    rw [scanRow]
    by_cases hc : A.rank ≠ A.rankOf c
    · rw [if_pos hc]
      exact ih _ (recvTag_mapSetInsert h rfl)
    · rw [if_neg hc]
      exact ih _ h

theorem recvTag_scanRows (A : SparseMatrixIn) :
    ∀ (l : List (Int × List Int)) (st : RankSetMap × RankSetMap),
    RecvTag A st.1 → RecvTag A (scanRows A l st).1 := by
  intro l
  induction l with
  | nil => intro st h; exact h
  | cons p rest ih =>
    intro st h
    obtain ⟨row, cols⟩ := p
    rw [scanRows]
    exact ih _ (recvTag_scanRow A row cols st h)

theorem recvTag_receiveList (A : SparseMatrixIn) : RecvTag A (receiveList A) := by
  apply recvTag_scanRows
  intro p hp
  simp at hp

/-- Insertions always pair up: the two scan maps hold exactly the same set
of neighbor ranks, in the same (ascending) order. -/
theorem map_fst_scanRow_eq (A : SparseMatrixIn) (row : Int) :
    ∀ (cols : List Int) (st : RankSetMap × RankSetMap),
    st.1.map Prod.fst = st.2.map Prod.fst →
    (scanRow A row cols st).1.map Prod.fst =
      (scanRow A row cols st).2.map Prod.fst := by
  intro cols
  induction cols with
  | nil => intro st h; exact h
  | cons c rest ih =>
    intro st h
    rw [scanRow]
    by_cases hc : A.rank ≠ A.rankOf c
    · rw [if_pos hc]
      exact ih _ (by rw [map_fst_mapSetInsert, map_fst_mapSetInsert, h])
    · rw [if_neg hc]
      exact ih _ h

theorem map_fst_scanRows_eq (A : SparseMatrixIn) :
    ∀ (l : List (Int × List Int)) (st : RankSetMap × RankSetMap),
    st.1.map Prod.fst = st.2.map Prod.fst →
    (scanRows A l st).1.map Prod.fst = (scanRows A l st).2.map Prod.fst := by
  intro l
  induction l with
  | nil => intro st h; exact h
  | cons p rest ih =>
    intro st h
    obtain ⟨row, cols⟩ := p
    rw [scanRows]
    exact ih _ (map_fst_scanRow_eq A row cols st h)

theorem map_fst_scanLists_eq (A : SparseMatrixIn) :
    (receiveList A).map Prod.fst = (sendList A).map Prod.fst :=
  map_fst_scanRows_eq A _ _ rfl

/-- Receive sets of distinct neighbors are pairwise disjoint (ownership is a
function of the column id). -/
theorem receiveList_pairwise_disjoint (A : SparseMatrixIn) :
    List.Pairwise (fun p q => ∀ g ∈ p.2, g ∉ q.2) (receiveList A) := by
  have hkeys : List.Pairwise (fun p q : Int × List Int => p.1 < q.1)
      (receiveList A) :=
    List.pairwise_map.mp (entryInv_scanLists A).1.1
  have htag := recvTag_receiveList A
  refine List.Pairwise.imp_of_mem ?_ hkeys
  intro p q hp hq hlt g hgp hgq
  have h1 := htag p hp g hgp
  have h2 := htag q hq g hgq
  omega

theorem length_flatMap_snd (m : RankSetMap) :
    (m.flatMap Prod.snd).length = setSizeSum m := by
  rw [show m.flatMap Prod.snd = (m.map Prod.snd).flatten by simp [List.flatMap],
    List.length_flatten, List.map_map]
  rfl

theorem externalAssignment_map_fst (A : SparseMatrixIn) :
    (externalAssignment A).map Prod.fst = (receiveList A).flatMap Prod.snd := by
  unfold externalAssignment externalPairs
  apply List.map_fst_zip
  rw [List.length_range']

theorem externalAssignment_map_snd (A : SparseMatrixIn) :
    (externalAssignment A).map Prod.snd =
      List.range' (localNumberOfRows A) (totalToBeReceived A) := by
  have h : externalAssignment A =
      ((receiveList A).flatMap Prod.snd).zip
        (List.range' (localNumberOfRows A)
          ((receiveList A).flatMap Prod.snd).length) := rfl
  rw [h, List.map_snd_zip _ _ (le_of_eq (List.length_range' _ _ _)),
    length_flatMap_snd]
  rfl

theorem externalAssignment_fst_nodup (A : SparseMatrixIn) :
    ((externalAssignment A).map Prod.fst).Nodup := by
  rw [externalAssignment_map_fst,
    show (receiveList A).flatMap Prod.snd = ((receiveList A).map Prod.snd).flatten
      by simp [List.flatMap]]
  rw [List.nodup_flatten]
  constructor
  · intro l hl
    rcases List.mem_map.mp hl with ⟨p, hp, hpl⟩
    subst hpl
    exact List.Pairwise.imp (fun h => ne_of_lt h) ((entryInv_scanLists A).1.2 p hp).1
  · rw [List.pairwise_map]
    exact List.Pairwise.imp (fun h g hg hg' => h g hg hg')
      (receiveList_pairwise_disjoint A)

theorem numberOfExternalValues_eq_totalToBeReceived (A : SparseMatrixIn) :
    numberOfExternalValuesOf A = totalToBeReceived A := by
  unfold numberOfExternalValuesOf
  rw [List.Nodup.dedup (externalAssignment_fst_nodup A), externalAssignment_map_fst,
    length_flatMap_snd]
  rfl

/-! ### Lemmas about `mapOption` -/

theorem mapOption_eq_some_iff {f : α → Option β} : ∀ {l : List α} {l' : List β},
    mapOption f l = some l' ↔ List.Forall₂ (fun a b => f a = some b) l l' := by
  intro l
  induction l with
  | nil =>
    intro l'
    constructor
    · intro h
      obtain rfl : l' = [] := by simpa [mapOption] using h.symm
      exact List.Forall₂.nil
    · intro h
      cases h
      rfl
  | cons a rest ih =>
    intro l'
    constructor
    · intro h
      rw [mapOption] at h
      rcases hf : f a with _ | b
      · rw [hf] at h; simp at h
      · rcases hm : mapOption f rest with _ | rest'
        · rw [hf, hm] at h; simp at h
        · rw [hf, hm] at h
          simp only [Option.some.injEq] at h
          subst h
          exact List.Forall₂.cons hf (ih.mp hm)
    · intro h
      cases h with
      | cons hab hrest =>
        rw [mapOption, hab, ih.mpr hrest]

theorem isSome_of_mapOption_eq_some {f : α → Option β} :
    ∀ {l : List α} {l' : List β}, mapOption f l = some l' →
    ∀ a ∈ l, (f a).isSome := by
  intro l
  induction l with
  | nil => intro l' _ a ha; simp at ha
  | cons x rest ih =>
    intro l' h a ha
    rw [mapOption] at h
    rcases hfx : f x with _ | b
    · rw [hfx] at h; simp at h
    · rcases hm : mapOption f rest with _ | rest'
      · rw [hfx, hm] at h; simp at h
      · rcases List.mem_cons.mp ha with he | he
        · subst he; rw [hfx]; rfl
        · exact ih hm a he

theorem mapOption_eq_some_of_forall {f : α → Option β} (d : β) :
    ∀ {l : List α}, (∀ a ∈ l, (f a).isSome) →
    mapOption f l = some (l.map (fun a => (f a).getD d)) := by
  intro l
  induction l with
  | nil => intro _; rfl
  | cons a rest ih =>
    intro h
    have ha := h a (List.mem_cons_self _ _)
    rcases hfa : f a with _ | b
    · rw [hfa] at ha; simp at ha
    · rw [mapOption, hfa, ih (fun x hx => h x (List.mem_cons_of_mem _ hx))]
      simp [hfa]

theorem mapOption_append {f : α → Option β} : ∀ {l₁ l₂ : List α},
    mapOption f (l₁ ++ l₂) =
      match mapOption f l₁, mapOption f l₂ with
      | some a, some b => some (a ++ b)
      | _, _ => none := by
  intro l₁
  induction l₁ with
  | nil =>
    intro l₂
    rcases h : mapOption f l₂ with _ | b <;> simp [mapOption, h]
  | cons a rest ih =>
    intro l₂
    rw [List.cons_append, mapOption, mapOption, ih]
    rcases hfa : f a with _ | b
    · rfl
    · rcases h1 : mapOption f rest with _ | r1 <;>
        rcases h2 : mapOption f l₂ with _ | r2 <;> rfl

theorem mapOption_flatten {f : α → Option β} :
    ∀ {L : List (List α)} {es : List β},
    mapOption f L.flatten = some es →
    ∃ groups : List (List β), es = groups.flatten ∧
      List.Forall₂ (fun li gi => mapOption f li = some gi) L groups := by
  intro L
  induction L with
  | nil =>
    intro es h
    obtain rfl : es = [] := by simpa [mapOption] using h.symm
    exact ⟨[], rfl, List.Forall₂.nil⟩
  | cons l rest ih =>
    intro es h
    rw [List.flatten_cons, mapOption_append] at h
    rcases h1 : mapOption f l with _ | g1 <;> rw [h1] at h
    · simp at h
    · rcases h2 : mapOption f rest.flatten with _ | g2 <;> rw [h2] at h
      · simp at h
      · simp only [Option.some.injEq] at h
        rcases ih h2 with ⟨groups, hg1, hg2⟩
        exact ⟨g1 :: groups, by rw [← h, List.flatten_cons, hg1],
          List.Forall₂.cons h1 hg2⟩

/-- Two strictly ascending integer lists with the same members are equal. -/
theorem sorted_lt_eq_of_mem_iff : ∀ {l₁ l₂ : List Int},
    List.Pairwise (· < ·) l₁ → List.Pairwise (· < ·) l₂ →
    (∀ x, x ∈ l₁ ↔ x ∈ l₂) → l₁ = l₂ := by
  intro l₁ l₂ h1 h2 hmem
  refine List.eq_of_perm_of_sorted ?_ h1 h2
  apply (List.perm_ext_iff_of_nodup ?_ ?_).mpr hmem
  · exact List.Pairwise.imp (fun h => ne_of_lt h) h1
  · exact List.Pairwise.imp (fun h => ne_of_lt h) h2

theorem sendLengthOf_eq (A : SparseMatrixIn) :
    sendLengthOf A = (sendList A).map (fun q => q.2.length) := by
  unfold sendLengthOf
  have h1 : (receiveList A).map (fun p => (mapSetFind p.1 (sendList A)).length) =
      ((receiveList A).map Prod.fst).map
        (fun k => (mapSetFind k (sendList A)).length) := by
    rw [List.map_map]
    rfl
  rw [h1, map_fst_scanLists_eq, List.map_map]
  apply List.map_congr_left
  intro q hq
  show (mapSetFind q.1 (sendList A)).length = q.2.length
  rw [mapSetFind_eq_of_mem (entryInv_scanLists A).2.1 (by rw [Prod.mk.eta]; exact hq)]

theorem totalToBeSent_eq_sum (A : SparseMatrixIn) :
    totalToBeSent A = (sendLengthOf A).sum := by
  rw [sendLengthOf_eq]
  rfl

theorem totalToBeReceived_eq_sum (A : SparseMatrixIn) :
    totalToBeReceived A = (receiveLengthOf A).sum := rfl

/-- What a successful `SetupHalo` run returns, stated field by field. -/
theorem setupHalo_destruct {A : SparseMatrixIn} {plan : HaloPlan}
    (h : SetupHaloMPI A = some plan) :
    ∃ es ml, elementsToSendOf A = some es ∧ mtxIndLOf A = some ml ∧
      plan = { mtxIndL := ml
               numberOfExternalValues := numberOfExternalValuesOf A
               localNumberOfColumns :=
                 localNumberOfRows A + numberOfExternalValuesOf A
               numberOfSendNeighbors := (sendList A).length
               totalToBeSent := totalToBeSent A
               elementsToSend := es
               neighbors := neighborsOf A
               receiveLength := receiveLengthOf A
               sendLength := sendLengthOf A
               sendBufferSize := totalToBeSent A } := by
  unfold SetupHaloMPI at h
  rcases h1 : elementsToSendOf A with _ | es <;> rw [h1] at h
  · simp at h
  · rcases h2 : mtxIndLOf A with _ | ml <;> rw [h2] at h
    · simp at h
    · simp only [Option.some.injEq] at h
      exact ⟨es, ml, rfl, rfl, h.symm⟩

theorem scanRow_all_local (A : SparseMatrixIn) (row : Int) :
    ∀ (cols : List Int) (st : RankSetMap × RankSetMap),
    (∀ g ∈ cols, A.rankOf g = A.rank) → scanRow A row cols st = st := by
  intro cols
  induction cols with
  | nil => intro st _; rfl
  | cons c rest ih =>
    intro st h
    rw [scanRow, if_neg (by
      have := h c (List.mem_cons_self _ _)
      simp [this])]
    exact ih st (fun g hg => h g (List.mem_cons_of_mem _ hg))

theorem scanLists_all_local (A : SparseMatrixIn)
    (h : ∀ cols ∈ A.rows, ∀ g ∈ cols, A.rankOf g = A.rank) :
    scanLists A = ([], []) := by
  unfold scanLists
  have hall : ∀ p ∈ A.localToGlobal.zip A.rows, ∀ g ∈ p.2, A.rankOf g = A.rank :=
    fun p hp => h p.2 (List.of_mem_zip hp).2
  generalize A.localToGlobal.zip A.rows = l at hall
  induction l with
  | nil => rfl
  | cons p rest ih =>
    obtain ⟨row, cols⟩ := p
    rw [scanRows, scanRow_all_local A row cols _
      (hall (row, cols) (List.mem_cons_self _ _))]
    exact ih (fun q hq => hall q (List.mem_cons_of_mem _ hq))

/-! ### The claims -/

/-- C1: the external local indices assigned to remote global column ids are
exactly `{numLocalRows, …, numLocalRows + numberOfExternalValues - 1}`, each
assigned to exactly one remote column id, produced by walking neighbors in
ascending rank order, the receive set of each neighbor in ascending order,
with a single counter starting at `numLocalRows`, incremented once per
assignment and never reset. -/
theorem C1_externalIndexAssignment (A : SparseMatrixIn) :
    (externalAssignment A).map Prod.snd =
      List.range' (localNumberOfRows A) (totalToBeReceived A) ∧
    ((externalAssignment A).map Prod.fst).Nodup ∧
    (externalAssignment A).map Prod.fst = (receiveList A).flatMap Prod.snd ∧
    List.Pairwise (· < ·) (neighborsOf A) ∧
    (∀ p ∈ receiveList A, List.Pairwise (· < ·) p.2) ∧
    ∀ plan, SetupHaloMPI A = some plan →
      plan.numberOfExternalValues = totalToBeReceived A := by
  refine ⟨externalAssignment_map_snd A, externalAssignment_fst_nodup A,
    externalAssignment_map_fst A, (entryInv_scanLists A).1.1, ?_, ?_⟩
  · intro p hp
    exact ((entryInv_scanLists A).1.2 p hp).1
  · intro plan hp
    rcases setupHalo_destruct hp with ⟨es, ml, -, -, rfl⟩
    exact numberOfExternalValues_eq_totalToBeReceived A

theorem C1_externalIndexAssignment_witness :
    exPlan0.numberOfExternalValues = totalToBeReceived exV0 :=
  (C1_externalIndexAssignment exV0).2.2.2.2.2 exPlan0 (by decide)

/-- C2: there is a valid input (structurally symmetric pattern, well-formed
partition, more than one process) on which one process's send total differs
from its receive total: local equality of the two totals is not implied by
validity (the `DEBUG`-build assertion `totalToBeSent == totalToBeReceived`
would fire on it). -/
theorem C2_localTotalsMayDiffer :
    StructurallySymmetric exP ∧ WellFormedPartition exP ∧ 1 < exP.size ∧
    (sendLengthOf (localView exP 0)).sum ≠ (receiveLengthOf (localView exP 0)).sum ∧
    totalToBeSent (localView exP 0) ≠ totalToBeReceived (localView exP 0) := by
  refine ⟨?_, ?_, by decide, by decide, by decide⟩
  · unfold StructurallySymmetric
    decide
  · unfold WellFormedPartition
    decide

/-- C4: the dependency scan records, for each local row and each of its
nonzero column ids owned by a remote rank, the column id in that rank's
receive set and the row's own global id in that rank's send set; locally
owned references change neither set; both sets are deduplicated. -/
theorem C4_dependencyScan (A : SparseMatrixIn) (r g : Int) :
    (g ∈ mapSetFind r (receiveList A) ↔
      A.rank ≠ r ∧ A.rankOf g = r ∧
        ∃ p ∈ A.localToGlobal.zip A.rows, g ∈ p.2) ∧
    (g ∈ mapSetFind r (sendList A) ↔
      A.rank ≠ r ∧
        ∃ p ∈ A.localToGlobal.zip A.rows, p.1 = g ∧ ∃ c ∈ p.2, A.rankOf c = r) ∧
    (∀ p ∈ receiveList A, p.2.Nodup) ∧ (∀ p ∈ sendList A, p.2.Nodup) := by
  refine ⟨mem_receiveList A r g, mem_sendList A r g, ?_, ?_⟩
  · intro p hp
    exact List.Pairwise.imp (fun h => ne_of_lt h) ((entryInv_scanLists A).1.2 p hp).1
  · intro p hp
    exact List.Pairwise.imp (fun h => ne_of_lt h) ((entryInv_scanLists A).2.2 p hp).1

theorem C4_dependencyScan_witness :
    (1 : Int) ∈ mapSetFind 1 (receiveList exV0) ∧
      (0 : Int) ∈ mapSetFind 1 (sendList exV0) :=
  ⟨(C4_dependencyScan exV0 1 1).1.mpr (by decide),
   (C4_dependencyScan exV0 1 0).2.1.mpr (by decide)⟩

/-- C6: the neighbors array is strictly ascending in rank with no
duplicates, and is a function of the set of neighbor ranks alone — two
inputs whose scans meet the same neighbor ranks (in whatever order) get the
same neighbors array. -/
theorem C6_neighborsSortedDeterministic (A B : SparseMatrixIn)
    (h : ∀ r, r ∈ neighborsOf A ↔ r ∈ neighborsOf B) :
    List.Pairwise (· < ·) (neighborsOf A) ∧ (neighborsOf A).Nodup ∧
    neighborsOf A = neighborsOf B ∧
    ∀ plan, SetupHaloMPI A = some plan → plan.neighbors = neighborsOf A := by
  have hA : List.Pairwise (· < ·) (neighborsOf A) := (entryInv_scanLists A).1.1
  have hB : List.Pairwise (· < ·) (neighborsOf B) := (entryInv_scanLists B).1.1
  refine ⟨hA, List.Pairwise.imp (fun h => ne_of_lt h) hA,
    sorted_lt_eq_of_mem_iff hA hB h, ?_⟩
  intro plan hp
  rcases setupHalo_destruct hp with ⟨es, ml, -, -, rfl⟩
  rfl

theorem C6_neighborsSortedDeterministic_witness :
    neighborsOf exOrd1 = neighborsOf exOrd2 :=
  (C6_neighborsSortedDeterministic exOrd1 exOrd2 (by
    intro r
    rw [show neighborsOf exOrd1 = [1, 2] by decide,
      show neighborsOf exOrd2 = [1, 2] by decide])).2.2.1

/-- C7: after setup, `localNumberOfColumns = localNumberOfRows +
numberOfExternalValues`. -/
theorem C7_localNumberOfColumns (A : SparseMatrixIn) (plan : HaloPlan)
    (h : SetupHaloMPI A = some plan) :
    plan.localNumberOfColumns = localNumberOfRows A + plan.numberOfExternalValues := by
  rcases setupHalo_destruct h with ⟨es, ml, -, -, rfl⟩
  rfl

theorem C7_localNumberOfColumns_witness :
    exPlan0.localNumberOfColumns =
      localNumberOfRows exV0 + exPlan0.numberOfExternalValues :=
  C7_localNumberOfColumns exV0 exPlan0 (by decide)

/-- C9: send-set and receive-set insertions always pair up on the same
rank, so the two maps key exactly the same neighbor ranks, and in the
produced plan every neighbor has `sendLength ≥ 1` and `receiveLength ≥ 1`:
no neighbor is send-only or receive-only. -/
theorem C9_neighborsPaired (A : SparseMatrixIn) (plan : HaloPlan)
    (h : SetupHaloMPI A = some plan) :
    (receiveList A).map Prod.fst = (sendList A).map Prod.fst ∧
    plan.sendLength.length = plan.neighbors.length ∧
    plan.receiveLength.length = plan.neighbors.length ∧
    (∀ n ∈ plan.sendLength, 1 ≤ n) ∧ (∀ n ∈ plan.receiveLength, 1 ≤ n) := by
  rcases setupHalo_destruct h with ⟨es, ml, -, -, rfl⟩
  refine ⟨map_fst_scanLists_eq A, ?_, ?_, ?_, ?_⟩
  · show (sendLengthOf A).length = (neighborsOf A).length
    unfold sendLengthOf neighborsOf
    rw [List.length_map, List.length_map]
  · show (receiveLengthOf A).length = (neighborsOf A).length
    unfold receiveLengthOf neighborsOf
    rw [List.length_map, List.length_map]
  · intro n hn
    have hn' : n ∈ (sendList A).map (fun q => q.2.length) := by
      rw [← sendLengthOf_eq]
      exact hn
    rcases List.mem_map.mp hn' with ⟨q, hq, hql⟩
    have hne := ((entryInv_scanLists A).2.2 q hq).2.1
    subst hql
    exact List.length_pos.mpr hne
  · intro n hn
    rcases List.mem_map.mp hn with ⟨p, hp, hpl⟩
    have hne := ((entryInv_scanLists A).1.2 p hp).2.1
    subst hpl
    exact List.length_pos.mpr hne

theorem C9_neighborsPaired_witness :
    (receiveList exV0).map Prod.fst = (sendList exV0).map Prod.fst :=
  (C9_neighborsPaired exV0 exPlan0 (by decide)).1

/-- C10: ownership being a function of the column id, the per-neighbor
receive sets are pairwise disjoint, so `numberOfExternalValues` equals the
sum of the `receiveLength` array. -/
theorem C10_receiveSetsDisjoint (A : SparseMatrixIn) (plan : HaloPlan)
    (h : SetupHaloMPI A = some plan) :
    List.Pairwise (fun p q => ∀ g ∈ p.2, g ∉ q.2) (receiveList A) ∧
    plan.numberOfExternalValues = plan.receiveLength.sum := by
  rcases setupHalo_destruct h with ⟨es, ml, -, -, rfl⟩
  refine ⟨receiveList_pairwise_disjoint A, ?_⟩
  show numberOfExternalValuesOf A = (receiveLengthOf A).sum
  rw [numberOfExternalValues_eq_totalToBeReceived]
  rfl

theorem C10_receiveSetsDisjoint_witness :
    exPlan0.numberOfExternalValues = exPlan0.receiveLength.sum :=
  (C10_receiveSetsDisjoint exV0 exPlan0 (by decide)).2

/-- C5: `elementsToSend` has length `totalToBeSent = sum(sendLength)`, is
grouped by neighbor in `neighbors` order, within each neighbor follows the
send set's ascending global-row order, each entry being the ownership map's
local index for that global row; the transfer buffer is allocated with
exactly `totalToBeSent` elements. -/
theorem C5_elementsToSendLayout (A : SparseMatrixIn) (plan : HaloPlan)
    (h : SetupHaloMPI A = some plan) :
    plan.totalToBeSent = plan.sendLength.sum ∧
    plan.elementsToSend.length = plan.totalToBeSent ∧
    plan.sendBufferSize = plan.totalToBeSent ∧
    (∀ r ∈ plan.neighbors, List.Pairwise (· < ·) (mapSetFind r (sendList A))) ∧
    ∃ groups : List (List Nat),
      plan.elementsToSend = groups.flatten ∧
      List.Forall₂
        (fun r grp =>
          List.Forall₂ (fun g e => mapFind? A.globalToLocal g = some e)
            (mapSetFind r (sendList A)) grp)
        plan.neighbors groups := by
  rcases setupHalo_destruct h with ⟨es, ml, h1, -, rfl⟩
  have hflat : (receiveList A).flatMap (fun p => mapSetFind p.1 (sendList A)) =
      ((receiveList A).map (fun p => mapSetFind p.1 (sendList A))).flatten := by
    simp [List.flatMap]
  refine ⟨totalToBeSent_eq_sum A, ?_, rfl, ?_, ?_⟩
  · show es.length = totalToBeSent A
    have hlen := (mapOption_eq_some_iff.mp h1).length_eq
    rw [← hlen, hflat, List.length_flatten, List.map_map, totalToBeSent_eq_sum]
    rfl
  · intro r hr
    have hr' : r ∈ (sendList A).map Prod.fst := by
      rw [← map_fst_scanLists_eq]
      exact hr
    rcases List.mem_map.mp hr' with ⟨q, hq, hql⟩
    rw [← hql,
      mapSetFind_eq_of_mem (entryInv_scanLists A).2.1 (by rw [Prod.mk.eta]; exact hq)]
    exact ((entryInv_scanLists A).2.2 q hq).1
  · rw [elementsToSendOf, hflat] at h1
    rcases mapOption_flatten h1 with ⟨groups, hg1, hg2⟩
    refine ⟨groups, hg1, ?_⟩
    rw [List.forall₂_map_left_iff] at hg2
    show List.Forall₂ _ ((receiveList A).map Prod.fst) groups
    rw [List.forall₂_map_left_iff]
    exact hg2.imp (fun a b hab => mapOption_eq_some_iff.mp hab)

theorem C5_elementsToSendLayout_witness :
    exPlan0.elementsToSend.length = exPlan0.totalToBeSent :=
  (C5_elementsToSendLayout exV0 exPlan0 (by decide)).2.1

/-- C8: on an input every column reference of which is locally owned
(including a single-participant run), the plan has no neighbors, no external
values, empty neighbor arrays, zero send volume, and the rewrite maps every
column id to its local row index through the ownership map. -/
theorem C8_allLocalIdentity (A : SparseMatrixIn)
    (hloc : ∀ cols ∈ A.rows, ∀ g ∈ cols, A.rankOf g = A.rank)
    (hdom : ∀ cols ∈ A.rows, ∀ g ∈ cols, (mapFind? A.globalToLocal g).isSome) :
    SetupHaloMPI A = some
      { mtxIndL := A.rows.map (fun cols =>
          cols.map (fun g => (mapFind? A.globalToLocal g).getD 0))
        numberOfExternalValues := 0
        localNumberOfColumns := localNumberOfRows A
        numberOfSendNeighbors := 0
        totalToBeSent := 0
        elementsToSend := []
        neighbors := []
        receiveLength := []
        sendLength := []
        sendBufferSize := 0 } := by
  have hscan := scanLists_all_local A hloc
  have hrecv : receiveList A = [] := by rw [receiveList, hscan]
  have hsend : sendList A = [] := by rw [sendList, hscan]
  have hes : elementsToSendOf A = some [] := by
    rw [elementsToSendOf, hrecv]
    rfl
  have houter : ∀ cols ∈ A.rows,
      mapOption (fun curIndex =>
        if A.rank = A.rankOf curIndex then mapFind? A.globalToLocal curIndex
        else some (extLookup (externalAssignment A) curIndex)) cols =
      some (cols.map (fun g => (mapFind? A.globalToLocal g).getD 0)) := by
    intro cols hc
    have hsome : ∀ g ∈ cols,
        (if A.rank = A.rankOf g then mapFind? A.globalToLocal g
         else some (extLookup (externalAssignment A) g)).isSome := by
      intro g hg
      rw [if_pos (hloc cols hc g hg).symm]
      exact hdom cols hc g hg
    rw [mapOption_eq_some_of_forall 0 hsome]
    congr 1
    apply List.map_congr_left
    intro g hg
    rw [if_pos (hloc cols hc g hg).symm]
  have hml : mtxIndLOf A = some (A.rows.map (fun cols =>
      cols.map (fun g => (mapFind? A.globalToLocal g).getD 0))) := by
    rw [mtxIndLOf]
    have hsome : ∀ cols ∈ A.rows,
        (mapOption (fun curIndex =>
          if A.rank = A.rankOf curIndex then mapFind? A.globalToLocal curIndex
          else some (extLookup (externalAssignment A) curIndex)) cols).isSome := by
      intro cols hc
      rw [houter cols hc]
      rfl
    rw [mapOption_eq_some_of_forall [] hsome]
    congr 1
    apply List.map_congr_left
    intro cols hc
    rw [houter cols hc]
    rfl
  rw [SetupHaloMPI, hes, hml]
  simp only [numberOfExternalValuesOf, externalAssignment, externalPairs, hrecv,
    totalToBeSent, setSizeSum, hsend, neighborsOf, receiveLengthOf, sendLengthOf,
    List.flatMap_nil, List.zip_nil_left, List.map_nil, List.dedup_nil,
    List.length_nil, List.sum_nil, Nat.add_zero]

theorem C8_allLocalIdentity_witness :
    SetupHaloMPI exLoc = some
      { mtxIndL := exLoc.rows.map (fun cols =>
          cols.map (fun g => (mapFind? exLoc.globalToLocal g).getD 0))
        numberOfExternalValues := 0
        localNumberOfColumns := localNumberOfRows exLoc
        numberOfSendNeighbors := 0
        totalToBeSent := 0
        elementsToSend := []
        neighbors := []
        receiveLength := []
        sendLength := []
        sendBufferSize := 0 } :=
  C8_allLocalIdentity exLoc (by decide) (by decide)

/-- C3 (ownership-map lookup modelled from the spec, its declaration being
outside the excerpt): when the resolver claims local ownership of a column
id the ownership map does not hold, the setup aborts and returns no plan. -/
theorem C3_malformedPartitionAborts (A : SparseMatrixIn) (g : Int)
    (hmem : ∃ cols ∈ A.rows, g ∈ cols)
    (hown : A.rankOf g = A.rank)
    (hmiss : mapFind? A.globalToLocal g = none) :
    SetupHaloMPI A = none := by
  have hml : mtxIndLOf A = none := by
    rcases hmem with ⟨cols, hc, hg⟩
    rcases h : mtxIndLOf A with _ | ml
    · rfl
    · exfalso
      have h1 := isSome_of_mapOption_eq_some h cols hc
      rcases Option.isSome_iff_exists.mp h1 with ⟨l', hl'⟩
      have h2 : (if A.rank = A.rankOf g then mapFind? A.globalToLocal g
          else some (extLookup (externalAssignment A) g)).isSome :=
        isSome_of_mapOption_eq_some hl' g hg
      rw [if_pos hown.symm, hmiss] at h2
      simp at h2
  rw [SetupHaloMPI, hml]
  rcases elementsToSendOf A with _ | es <;> rfl

theorem C3_malformedPartitionAborts_witness :
    SetupHaloMPI exBad = none :=
  C3_malformedPartitionAborts exBad 5 (by decide) (by decide) (by decide)

end SetupHaloModel
